import Mathlib

set_option linter.unusedSectionVars false

/-!
Verification of the associative-storage core of `containers-cpp`:
the chained hash table (`src/10-hashtable/hashtable.cc`, class `Hashtable`)
and the LRU cache (`src/14-lru/lru.cc`, class `LRU`).

The C++ data structures are shallowly embedded:
  * `std::unordered_map<Key, CacheEntry>` becomes an association list
    `List (Key × Value)`; the iterator stored in each `CacheEntry` is not
    modelled directly — the recency list `order : List Key` carries the same
    information and the C++ `order.erase(it)` (removal of the unique node
    holding the key) becomes removal of the first occurrence of the key.
  * `std::list<Key>` becomes `List Key` (front of the list = least recently
    used, back = most recently used, as in the source).
  * `std::vector<BucketList>` becomes `List (List (Key × Value))`;
    `forward_list::push_front` / `emplace_front` become `List.cons`.
  * `std::hash` is an arbitrary function `hasher : Key → Nat`;
    `hasher(k) % buckets.size()` is `hasher k % buckets.length`.
  * the load-factor test `nelems/float(buckets.size()) >= alpha` is modelled
    over `ℚ` (every value the program feeds into this comparison — a small
    integer divided by a power of two — is exactly representable in `float`,
    so the rational comparison coincides with the float one on all states the
    program can reach).
  * `assert(capacity > 0)` in the `LRU(size_t)` constructor is modelled as a
    fallible constructor returning `Option`.
-/

namespace ContainersCpp

/-! ### Association-list primitives

These model the operations the C++ code performs on `std::unordered_map`
(via `find`, `emplace`, `erase`, writing through an iterator) and on the
bucket chains (`std::find_if`, `remove_if`). -/

variable {Key Value : Type} [DecidableEq Key]

/-- Lookup of a key, as `unordered_map::find` / the bucket scan
`std::find_if(begin(b), end(b), equals(k, ·.first))`: the first entry whose
key equals `k`. -/
def lookupKey : List (Key × Value) → Key → Option Value
  | [], _ => none
  | (k', v) :: rest, k => if k' = k then some v else lookupKey rest k

/-- Removal of the (first) entry with the given key, as
`unordered_map::erase(key)`. -/
def eraseKey : List (Key × Value) → Key → List (Key × Value)
  | [], _ => []
  | (k', v) :: rest, k => if k' = k then rest else (k', v) :: eraseKey rest k

/-- In-place overwrite of the value stored under a key, as the C++
`it->second.first = value` / `entry->second = v` writes through the iterator
returned by `find`. -/
def updateKey : List (Key × Value) → Key → Value → List (Key × Value)
  | [], _, _ => []
  | (k', v') :: rest, k, v =>
      if k' = k then (k', v) :: rest else (k', v') :: updateKey rest k v

/-- Removal of (the node holding) a key from the recency list, as
`order.erase(it)` where `it` points at the unique node holding `key`. -/
def eraseElem : List Key → Key → List Key
  | [], _ => []
  | k' :: rest, k => if k' = k then rest else k' :: eraseElem rest k

/-! ### Lemmas about the association-list primitives -/

theorem lookupKey_eq_none {l : List (Key × Value)} {k : Key} :
    lookupKey l k = none ↔ k ∉ l.map Prod.fst := by
  induction l with
  | nil => simp [lookupKey]
  | cons p rest ih =>
      obtain ⟨k', v⟩ := p
      by_cases h : k' = k <;> simp [lookupKey, h, ih, Ne.symm]

theorem lookupKey_isSome {l : List (Key × Value)} {k : Key} :
    (lookupKey l k).isSome = true ↔ k ∈ l.map Prod.fst := by
  rcases h : lookupKey l k with _ | v
  · simpa using lookupKey_eq_none.mp h
  · simp only [Option.isSome_some, true_iff]
    by_contra hmem
    rw [lookupKey_eq_none.mpr hmem] at h
    exact Option.noConfusion h

theorem lookupKey_of_mem_nodup {l : List (Key × Value)} {k : Key} {v : Value}
    (hnd : (l.map Prod.fst).Nodup) (hmem : (k, v) ∈ l) :
    lookupKey l k = some v := by
  induction l with
  | nil => cases hmem
  | cons p rest ih =>
      obtain ⟨k', v'⟩ := p
      simp only [List.map_cons, List.nodup_cons] at hnd
      rcases List.mem_cons.mp hmem with heq | hrest
      · rw [Prod.mk.injEq] at heq
        obtain ⟨rfl, rfl⟩ := heq
        simp [lookupKey]
      · have hk : k' ≠ k := by
          rintro rfl
          exact hnd.1 (List.mem_map.mpr ⟨(k', v), hrest, rfl⟩)
        simp [lookupKey, hk, ih hnd.2 hrest]

theorem lookupKey_append_of_none {l l' : List (Key × Value)} {k : Key}
    (h : lookupKey l k = none) :
    lookupKey (l ++ l') k = lookupKey l' k := by
  induction l with
  | nil => rfl
  | cons p rest ih =>
      obtain ⟨k', v⟩ := p
      by_cases hk : k' = k
      · simp [lookupKey, hk] at h
      · simp only [lookupKey, hk, if_false] at h ⊢
        exact ih h

theorem map_fst_eraseKey (l : List (Key × Value)) (k : Key) :
    (eraseKey l k).map Prod.fst = eraseElem (l.map Prod.fst) k := by
  induction l with
  | nil => rfl
  | cons p rest ih =>
      obtain ⟨k', v⟩ := p
      by_cases h : k' = k <;> simp [eraseKey, eraseElem, h, ih]

theorem map_fst_updateKey (l : List (Key × Value)) (k : Key) (v : Value) :
    (updateKey l k v).map Prod.fst = l.map Prod.fst := by
  induction l with
  | nil => rfl
  | cons p rest ih =>
      obtain ⟨k', v'⟩ := p
      by_cases h : k' = k <;> simp [updateKey, h, ih]

theorem length_updateKey (l : List (Key × Value)) (k : Key) (v : Value) :
    (updateKey l k v).length = l.length := by
  have := congrArg List.length (map_fst_updateKey l k v)
  simpa using this

theorem lookupKey_updateKey_self {l : List (Key × Value)} {k : Key} {w : Value}
    (v : Value) (h : lookupKey l k = some w) :
    lookupKey (updateKey l k v) k = some v := by
  induction l with
  | nil => simp [lookupKey] at h
  | cons p rest ih =>
      obtain ⟨k', v'⟩ := p
      by_cases hk : k' = k
      · simp [updateKey, lookupKey, hk]
      · simp only [lookupKey, updateKey, hk, if_false] at h ⊢
        exact ih h

theorem lookupKey_updateKey_other {l : List (Key × Value)} {k k' : Key}
    (v : Value) (h : k ≠ k') :
    lookupKey (updateKey l k v) k' = lookupKey l k' := by
  induction l with
  | nil => rfl
  | cons p rest ih =>
      obtain ⟨k0, v0⟩ := p
      by_cases hk : k0 = k
      · subst hk
        simp [updateKey, lookupKey, h]
      · simp only [updateKey, lookupKey, hk, if_false] at ih ⊢
        by_cases hk' : k0 = k' <;> simp [hk', ih]

theorem eraseElem_eq_erase (l : List Key) (k : Key) :
    eraseElem l k = l.erase k := by
  induction l with
  | nil => rfl
  | cons k' rest ih =>
      by_cases h : k' = k <;> simp [eraseElem, List.erase_cons, h, ih]

theorem mem_of_mem_eraseElem {l : List Key} {k a : Key}
    (h : a ∈ eraseElem l k) : a ∈ l := by
  rw [eraseElem_eq_erase] at h
  exact List.mem_of_mem_erase h

theorem lookupKey_eraseKey_none {l : List (Key × Value)} {k k0 : Key}
    (h : lookupKey l k = none) : lookupKey (eraseKey l k0) k = none := by
  rw [lookupKey_eq_none] at h ⊢
  rw [map_fst_eraseKey]
  exact fun hmem => h (mem_of_mem_eraseElem hmem)

/-! ### The LRU cache (`src/14-lru/lru.cc`) -/

/-- State of `containers::LRU`: the `cache` map, the recency list `order`
(least recently used at the front), and the configured `capacity_`. -/
structure LRU (Key Value : Type) where
  cache : List (Key × Value)
  order : List Key
  capacity : Nat
deriving DecidableEq

namespace LRU

/-- Model of `LRU::get`: returns the value stored under `key` (or `nullopt`) and the
cache state after the recency bump. -/
def get (s : LRU Key Value) (k : Key) : Option Value × LRU Key Value :=
  match lookupKey s.cache k with
  | none => (none, s)
  | some v => (some v, { s with order := eraseElem s.order k ++ [k] })

/-- Model of `LRU::set`: inserts or overwrites `key`, evicting the least recently
used entry when a new key is added at capacity.

When the key is new, `std::size(cache) == capacity_` and `order` is empty,
the C++ `order.front()` is undefined behaviour; that situation is
unreachable from any state the asserted constructor admits (it would need
`capacity_ = 0`), and the model then skips the eviction. -/
def set (s : LRU Key Value) (k : Key) (v : Value) : LRU Key Value :=
  match lookupKey s.cache k with
  | some _ =>
      { s with cache := updateKey s.cache k v
               order := eraseElem s.order k ++ [k] }
  | none =>
      if s.cache.length = s.capacity then
        match s.order with
        | [] => { s with cache := s.cache ++ [(k, v)], order := [k] }
        | kLru :: restOrder =>
            { s with cache := eraseKey s.cache kLru ++ [(k, v)]
                     order := restOrder ++ [k] }
      else
        { s with cache := s.cache ++ [(k, v)], order := s.order ++ [k] }

/-- Model of `LRU::size`: number of elements in the cache. -/
def size (s : LRU Key Value) : Nat := s.cache.length

/-- A public operation on the cache. -/
inductive Op (Key Value : Type) where
  | get (k : Key)
  | set (k : Key) (v : Value)
deriving DecidableEq

/-- One public operation, discarding the value returned by `get`. -/
def applyOp (s : LRU Key Value) : Op Key Value → LRU Key Value
  | .get k => (s.get k).2
  | .set k v => s.set k v

/-- A sequence of public operations. -/
def run (s : LRU Key Value) (ops : List (Op Key Value)) : LRU Key Value :=
  ops.foldl applyOp s

/-- The state built by the `LRU(size_t capacity)` constructor (both
containers start empty). -/
def init (c : Nat) : LRU Key Value := ⟨[], [], c⟩

/-- The `LRU(size_t capacity)` constructor together with its
`assert(capacity > 0)`: the assertion failure is modelled as `none`. -/
def mkChecked (c : Nat) : Option (LRU Key Value) :=
  if 0 < c then some (init c) else none

/-- The defaulted constructor `LRU() = default`, which leaves
`capacity_{10}` at its member initializer and performs no check. -/
def mkDefault : LRU Key Value := ⟨[], [], 10⟩

/-- Well-formedness: the map has no duplicate keys, the recency list is a
permutation of the map's keys (hence same key set, same length, no
duplicates), the size is bounded by the capacity, and the capacity is
positive (as the asserted constructor guarantees). -/
def Inv (s : LRU Key Value) : Prop :=
  (s.cache.map Prod.fst).Nodup ∧
  s.order.Perm (s.cache.map Prod.fst) ∧
  s.cache.length ≤ s.capacity ∧
  0 < s.capacity

/-- The operation sequence performing the given `set` calls in order. -/
def setsOf (kvs : List (Key × Value)) : List (Op Key Value) :=
  kvs.map fun p => Op.set p.1 p.2

/-- A state reachable from the asserted constructor (any capacity `c ≥ 1`)
by a finite sequence of public `get`/`set` operations. -/
def Reachable (s : LRU Key Value) : Prop :=
  ∃ c ops, 0 < c ∧ s = (init c : LRU Key Value).run ops

/-! #### Equation lemmas for `get` and `set`, one per source branch -/

theorem get_eq_none {s : LRU Key Value} {k : Key}
    (h : lookupKey s.cache k = none) : s.get k = (none, s) := by
  simp [LRU.get, h]

theorem get_eq_some {s : LRU Key Value} {k : Key} {v : Value}
    (h : lookupKey s.cache k = some v) :
    s.get k = (some v, { s with order := eraseElem s.order k ++ [k] }) := by
  simp [LRU.get, h]

theorem set_eq_update {s : LRU Key Value} {k : Key} {w : Value} (v : Value)
    (h : lookupKey s.cache k = some w) :
    s.set k v = { s with cache := updateKey s.cache k v
                         order := eraseElem s.order k ++ [k] } := by
  simp [LRU.set, h]

theorem set_eq_append {s : LRU Key Value} {k : Key} (v : Value)
    (h : lookupKey s.cache k = none) (hfull : s.cache.length ≠ s.capacity) :
    s.set k v = { s with cache := s.cache ++ [(k, v)]
                         order := s.order ++ [k] } := by
  simp [LRU.set, h, hfull]

theorem set_eq_evict {s : LRU Key Value} {k : Key} {kLru : Key}
    {restOrder : List Key} (v : Value)
    (h : lookupKey s.cache k = none) (hfull : s.cache.length = s.capacity)
    (hord : s.order = kLru :: restOrder) :
    s.set k v = { s with cache := eraseKey s.cache kLru ++ [(k, v)]
                         order := restOrder ++ [k] } := by
  simp [LRU.set, h, hfull, hord]

/-! #### The reachable-state invariant of the cache -/

theorem perm_eraseElem_append {l : List Key} {k : Key} (h : k ∈ l) :
    (eraseElem l k ++ [k]).Perm l := by
  rw [eraseElem_eq_erase]
  exact (List.perm_append_singleton k _).trans (List.perm_cons_erase h).symm

theorem length_eraseKey_of_mem {l : List (Key × Value)} {k : Key}
    (h : k ∈ l.map Prod.fst) : (eraseKey l k).length = l.length - 1 := by
  have hmap := congrArg List.length (map_fst_eraseKey l k)
  rw [List.length_map, eraseElem_eq_erase, List.length_erase_of_mem h,
      List.length_map] at hmap
  exact hmap

theorem inv_get {s : LRU Key Value} (hs : Inv s) (k : Key) :
    Inv (s.get k).2 := by
  obtain ⟨hnd, hperm, hle, hcap⟩ := hs
  rcases hlk : lookupKey s.cache k with _ | v
  · rw [get_eq_none hlk]
    exact ⟨hnd, hperm, hle, hcap⟩
  · have hkmem : k ∈ s.cache.map Prod.fst := by
      rw [← lookupKey_isSome, hlk]; rfl
    have hkord : k ∈ s.order := hperm.mem_iff.mpr hkmem
    rw [get_eq_some hlk]
    exact ⟨hnd, (perm_eraseElem_append hkord).trans hperm, hle, hcap⟩

theorem order_ne_nil_of_full {s : LRU Key Value} (hs : Inv s)
    (hfull : s.cache.length = s.capacity) : s.order ≠ [] := by
  obtain ⟨_, hperm, _, hcap⟩ := hs
  intro hord
  have hkeys : s.cache.map Prod.fst = [] :=
    List.perm_nil.mp (hord ▸ hperm).symm
  have hc0 : s.cache = [] := List.map_eq_nil_iff.mp hkeys
  rw [hc0] at hfull
  simp at hfull
  omega

theorem inv_set {s : LRU Key Value} (hs : Inv s) (k : Key) (v : Value) :
    Inv (s.set k v) := by
  obtain ⟨hnd, hperm, hle, hcap⟩ := hs
  rcases hlk : lookupKey s.cache k with _ | w
  · -- New key.
    have hkabs : k ∉ s.cache.map Prod.fst := lookupKey_eq_none.mp hlk
    by_cases hfull : s.cache.length = s.capacity
    · rcases hord : s.order with _ | ⟨kLru, restOrder⟩
      · exact absurd hord (order_ne_nil_of_full ⟨hnd, hperm, hle, hcap⟩ hfull)
      · have hkLru : kLru ∈ s.cache.map Prod.fst :=
          hperm.mem_iff.mp (hord ▸ List.mem_cons_self kLru restOrder)
        have hkmem' : k ∉ eraseElem (s.cache.map Prod.fst) kLru :=
          fun hmem => hkabs (mem_of_mem_eraseElem hmem)
        rw [set_eq_evict v hlk hfull hord]
        refine ⟨?_, ?_, ?_, hcap⟩
        · rw [List.map_append, map_fst_eraseKey]
          refine ((List.perm_append_singleton k _).nodup_iff).mpr ?_
          refine List.nodup_cons.mpr ⟨hkmem', ?_⟩
          rw [eraseElem_eq_erase]
          exact hnd.erase kLru
        · rw [List.map_append, map_fst_eraseKey]
          refine List.Perm.append ?_ (List.Perm.refl _)
          have h1 : ((kLru :: restOrder).erase kLru).Perm
              ((s.cache.map Prod.fst).erase kLru) :=
            (hord ▸ hperm).erase kLru
          rw [List.erase_cons_head] at h1
          rw [eraseElem_eq_erase]
          exact h1
        · rw [List.length_append, length_eraseKey_of_mem hkLru,
              List.length_singleton]
          show s.cache.length - 1 + 1 ≤ s.capacity
          omega
    · rw [set_eq_append v hlk hfull]
      refine ⟨?_, ?_, ?_, hcap⟩
      · rw [List.map_append]
        refine ((List.perm_append_singleton k _).nodup_iff).mpr ?_
        exact List.nodup_cons.mpr ⟨hkabs, hnd⟩
      · rw [List.map_append]
        exact hperm.append (List.Perm.refl _)
      · rw [List.length_append, List.length_singleton]
        show s.cache.length + 1 ≤ s.capacity
        omega
  · -- Existing key: overwrite value, bump recency.
    have hkmem : k ∈ s.cache.map Prod.fst := by
      rw [← lookupKey_isSome, hlk]; rfl
    have hkord : k ∈ s.order := hperm.mem_iff.mpr hkmem
    rw [set_eq_update v hlk]
    refine ⟨?_, ?_, ?_, hcap⟩
    · rw [map_fst_updateKey]; exact hnd
    · rw [map_fst_updateKey]
      exact (perm_eraseElem_append hkord).trans hperm
    · rw [length_updateKey]; exact hle

theorem inv_applyOp {s : LRU Key Value} (hs : Inv s) (op : Op Key Value) :
    Inv (s.applyOp op) := by
  cases op with
  | get k => exact inv_get hs k
  | set k v => exact inv_set hs k v

theorem inv_run {s : LRU Key Value} (hs : Inv s) (ops : List (Op Key Value)) :
    Inv (s.run ops) := by
  induction ops generalizing s with
  | nil => exact hs
  | cons op rest ih => exact ih (inv_applyOp hs op)

theorem inv_init {c : Nat} (hc : 0 < c) : Inv (init c : LRU Key Value) :=
  ⟨List.nodup_nil, List.Perm.refl _, Nat.zero_le c, hc⟩

/-! #### The capacity field is never mutated -/

theorem capacity_get (s : LRU Key Value) (k : Key) :
    (s.get k).2.capacity = s.capacity := by
  rcases h : lookupKey s.cache k with _ | v <;> simp [LRU.get, h]

theorem capacity_set (s : LRU Key Value) (k : Key) (v : Value) :
    (s.set k v).capacity = s.capacity := by
  rcases h : lookupKey s.cache k with _ | w
  · by_cases hfull : s.cache.length = s.capacity
    · rcases hord : s.order with _ | ⟨kLru, restOrder⟩ <;>
        simp [LRU.set, h, hfull, hord]
    · simp [LRU.set, h, hfull]
  · simp [LRU.set, h]

theorem capacity_applyOp (s : LRU Key Value) (op : Op Key Value) :
    (s.applyOp op).capacity = s.capacity := by
  cases op with
  | get k => exact capacity_get s k
  | set k v => exact capacity_set s k v

theorem capacity_run (s : LRU Key Value) (ops : List (Op Key Value)) :
    (s.run ops).capacity = s.capacity := by
  induction ops generalizing s with
  | nil => rfl
  | cons op rest ih => rw [run, List.foldl_cons, ← run, ih, capacity_applyOp]

/-! #### Filling an empty cache with distinct keys -/

theorem run_cons (s : LRU Key Value) (op : Op Key Value)
    (ops : List (Op Key Value)) : s.run (op :: ops) = (s.applyOp op).run ops :=
  rfl

theorem run_append (s : LRU Key Value) (ops1 ops2 : List (Op Key Value)) :
    s.run (ops1 ++ ops2) = (s.run ops1).run ops2 := by
  simp [run, List.foldl_append]

/-- Setting a list of fresh, pairwise-distinct keys into a cache that holds
`acc` (in insertion order) and has room for all of them simply appends them,
both in the map and in the recency list. -/
theorem run_setsOf_fill {c : Nat} (kvs : List (Key × Value)) :
    ∀ acc : List (Key × Value),
    ((acc ++ kvs).map Prod.fst).Nodup → (acc ++ kvs).length ≤ c →
    (LRU.mk acc (acc.map Prod.fst) c : LRU Key Value).run (setsOf kvs)
      = ⟨acc ++ kvs, (acc ++ kvs).map Prod.fst, c⟩ := by
  induction kvs with
  | nil => intro acc _ _; simp [run, setsOf]
  | cons p rest ih =>
      intro acc hnd hlen
      obtain ⟨k, v⟩ := p
      have hknot : k ∉ acc.map Prod.fst := by
        rw [List.map_append] at hnd
        exact fun hmem =>
          (List.nodup_append.mp hnd).2.2 hmem
            (List.map_cons Prod.fst (k, v) rest ▸ List.mem_cons_self k _)
      have hlenacc : acc.length < c := by
        rw [List.length_append, List.length_cons] at hlen
        omega
      have hassoc : (acc ++ [(k, v)]) ++ rest = acc ++ (k, v) :: rest := by
        simp
      have hset : ((LRU.mk acc (acc.map Prod.fst) c : LRU Key Value).applyOp
            (Op.set k v))
          = ⟨acc ++ [(k, v)], (acc ++ [(k, v)]).map Prod.fst, c⟩ := by
        show (LRU.mk acc (acc.map Prod.fst) c : LRU Key Value).set k v = _
        rw [set_eq_append v (lookupKey_eq_none.mpr hknot)
            (Nat.ne_of_lt hlenacc)]
        simp
      rw [setsOf, List.map_cons, run_cons, hset, ← setsOf,
          ih (acc ++ [(k, v)]) (hassoc ▸ hnd) (hassoc ▸ hlen), hassoc]

theorem inv_of_reachable {s : LRU Key Value} (hs : Reachable s) : Inv s := by
  obtain ⟨c, ops, hc, rfl⟩ := hs
  exact inv_run (inv_init hc) ops

/-- C1: for every capacity `C ≥ 1` and every finite sequence of `set` calls
(with any interleaved `get` calls) starting from a cache constructed with
capacity `C`, after each call `size() ≤ capacity()` holds (quantifying over
all operation sequences covers every intermediate point of a longer
sequence). -/
theorem capacity_bound (c : Nat) (hc : 0 < c) (ops : List (Op Key Value)) :
    ((init c : LRU Key Value).run ops).size
      ≤ ((init c : LRU Key Value).run ops).capacity :=
  (inv_run (inv_init hc) ops).2.2.1

theorem capacity_bound_witness :
    0 < 2 ∧ ((init 2 : LRU Nat Nat).run
        [Op.set 1 1, Op.set 2 2, Op.set 3 3, Op.get 2]).size
      ≤ ((init 2 : LRU Nat Nat).run
        [Op.set 1 1, Op.set 2 2, Op.set 3 3, Op.get 2]).capacity :=
  ⟨by decide, capacity_bound 2 (by decide)
    [Op.set 1 1, Op.set 2 2, Op.set 3 3, Op.get 2]⟩

/-- C4: in every reachable state, the key set of the index map equals the
key set of the recency sequence, the two have equal cardinality, and each
key occurs exactly once in the recency sequence. -/
theorem bijection_invariant {s : LRU Key Value} (hs : Reachable s) (k : Key) :
    (k ∈ s.cache.map Prod.fst ↔ k ∈ s.order) ∧
    s.order.length = s.cache.length ∧
    s.order.Nodup ∧ (s.cache.map Prod.fst).Nodup := by
  obtain ⟨hnd, hperm, _, _⟩ := inv_of_reachable hs
  exact ⟨hperm.mem_iff.symm, by simpa using hperm.length_eq,
    hperm.nodup_iff.mpr hnd, hnd⟩

theorem bijection_invariant_witness :
    ((1 : Nat) ∈ (((init 2 : LRU Nat Nat).run
        [Op.set 1 5, Op.set 2 6]).cache.map Prod.fst) ↔
      (1 : Nat) ∈ ((init 2 : LRU Nat Nat).run
        [Op.set 1 5, Op.set 2 6]).order) ∧
    ((init 2 : LRU Nat Nat).run [Op.set 1 5, Op.set 2 6]).order.length
      = ((init 2 : LRU Nat Nat).run [Op.set 1 5, Op.set 2 6]).cache.length ∧
    ((init 2 : LRU Nat Nat).run [Op.set 1 5, Op.set 2 6]).order.Nodup ∧
    ((((init 2 : LRU Nat Nat).run
        [Op.set 1 5, Op.set 2 6]).cache.map Prod.fst)).Nodup :=
  bijection_invariant ⟨2, [Op.set 1 5, Op.set 2 6], by decide, rfl⟩ 1

/-- C9: constructing with capacity `C ≥ 1` succeeds, `capacity()` returns
`C` and never changes under any later sequence of operations; constructing
with capacity `0` trips the `assert` (modelled as `none`) instead of
producing a usable cache. -/
theorem constructor_contract (c : Nat) (hc : 0 < c)
    (ops : List (Op Key Value)) :
    mkChecked c = some (init c : LRU Key Value) ∧
    (init c : LRU Key Value).capacity = c ∧
    ((init c : LRU Key Value).run ops).capacity = c ∧
    mkChecked 0 = (none : Option (LRU Key Value)) := by
  refine ⟨by simp [mkChecked, hc], rfl, capacity_run _ ops, by simp [mkChecked]⟩

theorem constructor_contract_witness :
    0 < 4 ∧
    (mkChecked 4 = some (init 4 : LRU Nat Nat) ∧
      (init 4 : LRU Nat Nat).capacity = 4 ∧
      ((init 4 : LRU Nat Nat).run [Op.set 9 9, Op.get 9]).capacity = 4 ∧
      mkChecked 0 = (none : Option (LRU Nat Nat))) :=
  ⟨by decide, constructor_contract 4 (by decide) [Op.set 9 9, Op.get 9]⟩

/-- C10: the defaulted constructor (not mentioned in the spec) builds a
cache with `capacity() = 10` and no positivity check; it is the same state
the checked constructor builds for capacity `10`, so it obeys the same
capacity bound (and hence the same eviction behaviour) with bound `10`. -/
theorem default_constructor (ops : List (Op Key Value)) :
    (mkDefault : LRU Key Value).capacity = 10 ∧
    (mkDefault : LRU Key Value) = init 10 ∧
    ((mkDefault : LRU Key Value).run ops).size ≤ 10 := by
  refine ⟨rfl, rfl, ?_⟩
  have h := (inv_run (inv_init (show (0 : Nat) < 10 by omega)) ops).2.2.1
  have hcap := capacity_run (init 10 : LRU Key Value) ops
  rw [hcap] at h
  exact h

theorem default_constructor_witness :
    (mkDefault : LRU Nat Nat).capacity = 10 ∧
    (mkDefault : LRU Nat Nat) = init 10 ∧
    ((mkDefault : LRU Nat Nat).run [Op.set 3 4, Op.get 3]).size ≤ 10 :=
  default_constructor [Op.set 3 4, Op.get 3]

/-! #### Eviction order -/

theorem set_eq_full_nil {s : LRU Key Value} {k : Key} (v : Value)
    (h : lookupKey s.cache k = none) (hfull : s.cache.length = s.capacity)
    (hord : s.order = []) :
    s.set k v = { s with cache := s.cache ++ [(k, v)], order := [k] } := by
  simp [LRU.set, h, hfull, hord]

/-- After `set k v` the key `k` is always found, bound to `v`. -/
theorem lookupKey_set_self (s : LRU Key Value) (k : Key) (v : Value) :
    lookupKey (s.set k v).cache k = some v := by
  rcases hlk : lookupKey s.cache k with _ | w
  · by_cases hfull : s.cache.length = s.capacity
    · rcases hord : s.order with _ | ⟨kLru, restOrder⟩
      · rw [set_eq_full_nil v hlk hfull hord]
        show lookupKey (s.cache ++ [(k, v)]) k = some v
        rw [lookupKey_append_of_none hlk]
        simp [lookupKey]
      · rw [set_eq_evict v hlk hfull hord]
        show lookupKey (eraseKey s.cache kLru ++ [(k, v)]) k = some v
        rw [lookupKey_append_of_none (lookupKey_eraseKey_none hlk)]
        simp [lookupKey]
    · rw [set_eq_append v hlk hfull]
      show lookupKey (s.cache ++ [(k, v)]) k = some v
      rw [lookupKey_append_of_none hlk]
      simp [lookupKey]
  · rw [set_eq_update v hlk]
    show lookupKey (updateKey s.cache k v) k = some v
    exact lookupKey_updateKey_self v hlk

/-- C2: capacity `C ≥ 1` (here `C = rest.length + 1`), `C + 1` `set` calls
on pairwise-distinct keys with no intervening `get`: afterwards the
first-inserted key is absent, every other key is present with its `set`
value, and the size is `C`. -/
theorem lru_eviction (c : Nat) (k1 : Key) (v1 : Value)
    (rest : List (Key × Value)) (knew : Key) (vnew : Value)
    {s : LRU Key Value}
    (hlen : ((k1, v1) :: rest).length = c)
    (hnd : ((((k1, v1) :: rest) ++ [(knew, vnew)]).map Prod.fst).Nodup)
    (hs : s = (init c : LRU Key Value).run
        (setsOf (((k1, v1) :: rest) ++ [(knew, vnew)]))) :
    (s.get k1).1 = none ∧
    (∀ p ∈ rest ++ [(knew, vnew)], (s.get p.1).1 = some p.2) ∧
    s.size = c := by
  subst hs
  have hnd' : (k1 :: (rest.map Prod.fst ++ [knew])).Nodup := by
    simpa only [List.cons_append, List.map_cons, List.map_append,
      List.map_nil] using hnd
  obtain ⟨hk1notin, hndtail⟩ := List.nodup_cons.mp hnd'
  have hnd0 : (((k1, v1) :: rest).map Prod.fst).Nodup := by
    rw [List.map_append] at hnd
    exact (List.nodup_append.mp hnd).1
  have hfill : (init c : LRU Key Value).run (setsOf ((k1, v1) :: rest))
      = ⟨(k1, v1) :: rest, ((k1, v1) :: rest).map Prod.fst, c⟩ := by
    have h := run_setsOf_fill (c := c) ((k1, v1) :: rest) []
      (by simpa using hnd0) (by simpa using Nat.le_of_eq hlen)
    simpa using h
  have hknotin : knew ∉ k1 :: rest.map Prod.fst := by
    have h2 : ((k1 :: rest.map Prod.fst) ++ [knew]).Nodup := by
      simpa using hnd'
    have h3 : (knew :: (k1 :: rest.map Prod.fst)).Nodup :=
      ((List.perm_append_singleton knew _).nodup_iff).mp h2
    exact (List.nodup_cons.mp h3).1
  have hlk : lookupKey ((k1, v1) :: rest) knew = none := by
    rw [lookupKey_eq_none]
    intro hmem
    exact hknotin (by simpa using hmem)
  have hsets : setsOf (((k1, v1) :: rest) ++ [(knew, vnew)])
      = setsOf ((k1, v1) :: rest) ++ [Op.set knew vnew] := by
    simp [setsOf]
  have hlast : ((⟨(k1, v1) :: rest, ((k1, v1) :: rest).map Prod.fst, c⟩ :
      LRU Key Value).set knew vnew)
      = ⟨rest ++ [(knew, vnew)], rest.map Prod.fst ++ [knew], c⟩ := by
    rw [set_eq_evict vnew hlk hlen rfl]
    simp [eraseKey]
  have hrun : (init c : LRU Key Value).run
        (setsOf (((k1, v1) :: rest) ++ [(knew, vnew)]))
      = ⟨rest ++ [(knew, vnew)], rest.map Prod.fst ++ [knew], c⟩ := by
    rw [hsets, run_append, hfill]
    show (⟨(k1, v1) :: rest, ((k1, v1) :: rest).map Prod.fst, c⟩ :
        LRU Key Value).set knew vnew = _
    exact hlast
  rw [hrun]
  refine ⟨?_, ?_, ?_⟩
  · have hnone : lookupKey (rest ++ [(knew, vnew)]) k1 = none := by
      rw [lookupKey_eq_none]
      intro hmem
      exact hk1notin (by simpa using hmem)
    rw [get_eq_none hnone]
  · intro p hp
    obtain ⟨pk, pv⟩ := p
    have hsome : lookupKey (rest ++ [(knew, vnew)]) pk = some pv := by
      apply lookupKey_of_mem_nodup
      · simpa using hndtail
      · exact hp
    rw [get_eq_some hsome]
  · show (rest ++ [(knew, vnew)]).length = c
    simp only [List.length_append, List.length_singleton]
    simp only [List.length_cons] at hlen
    omega

theorem lru_eviction_witness :
    ((((init 3 : LRU Nat Nat).run
        (setsOf (((1, 11) :: [(2, 12), (3, 13)]) ++ [(4, 14)]))).get 1).1
      = none) ∧
    ((((init 3 : LRU Nat Nat).run
        (setsOf (((1, 11) :: [(2, 12), (3, 13)]) ++ [(4, 14)]))).get 4).1
      = some 14) ∧
    (((init 3 : LRU Nat Nat).run
        (setsOf (((1, 11) :: [(2, 12), (3, 13)]) ++ [(4, 14)]))).size = 3) :=
  ⟨(lru_eviction 3 1 11 [(2, 12), (3, 13)] 4 14 (by decide) (by decide)
      rfl).1,
   (lru_eviction 3 1 11 [(2, 12), (3, 13)] 4 14 (by decide) (by decide)
      rfl).2.1 (4, 14) (by decide),
   (lru_eviction 3 1 11 [(2, 12), (3, 13)] 4 14 (by decide) (by decide)
      rfl).2.2⟩

/-- C3: fill capacity `C ≥ 2` with distinct keys `k1, k2, …`, `get k1`,
then `set` a fresh key: `k2` (now least recently used) is evicted while
`k1` survives and still yields its value. -/
theorem recency_refresh (c : Nat) (k1 : Key) (v1 : Value) (k2 : Key)
    (v2 : Value) (rest : List (Key × Value)) (knew : Key) (vnew : Value)
    {s2 : LRU Key Value}
    (hlen : ((k1, v1) :: (k2, v2) :: rest).length = c)
    (hnd : ((((k1, v1) :: (k2, v2) :: rest) ++ [(knew, vnew)]).map
        Prod.fst).Nodup)
    (hs : s2 = ((((init c : LRU Key Value).run
        (setsOf ((k1, v1) :: (k2, v2) :: rest))).get k1).2).set knew vnew) :
    (s2.get k2).1 = none ∧ (s2.get k1).1 = some v1 := by
  subst hs
  have hnd' : (k1 :: k2 :: (rest.map Prod.fst ++ [knew])).Nodup := by
    simpa only [List.cons_append, List.map_cons, List.map_append,
      List.map_nil] using hnd
  have hk1ne2 : k1 ≠ k2 := by
    intro h
    exact (List.nodup_cons.mp hnd').1 (h ▸ List.mem_cons_self _ _)
  have hk2notin : k2 ∉ rest.map Prod.fst ++ [knew] :=
    (List.nodup_cons.mp (List.nodup_cons.mp hnd').2).1
  have hsub : List.Sublist (k1 :: k2 :: rest.map Prod.fst)
      (k1 :: k2 :: (rest.map Prod.fst ++ [knew])) :=
    ((List.sublist_append_left (rest.map Prod.fst) [knew]).cons₂ k2).cons₂ k1
  have hnd0 : (k1 :: k2 :: rest.map Prod.fst).Nodup := hnd'.sublist hsub
  have hfill : (init c : LRU Key Value).run
        (setsOf ((k1, v1) :: (k2, v2) :: rest))
      = ⟨(k1, v1) :: (k2, v2) :: rest,
          ((k1, v1) :: (k2, v2) :: rest).map Prod.fst, c⟩ := by
    have h := run_setsOf_fill (c := c) ((k1, v1) :: (k2, v2) :: rest) []
      (by simpa using hnd0) (by simpa using Nat.le_of_eq hlen)
    simpa using h
  have hget : ((⟨(k1, v1) :: (k2, v2) :: rest,
        ((k1, v1) :: (k2, v2) :: rest).map Prod.fst, c⟩ :
        LRU Key Value).get k1).2
      = ⟨(k1, v1) :: (k2, v2) :: rest,
          k2 :: (rest.map Prod.fst ++ [k1]), c⟩ := by
    rw [get_eq_some (show lookupKey ((k1, v1) :: (k2, v2) :: rest) k1
        = some v1 by simp [lookupKey])]
    simp [eraseElem]
  have hknewnotin : knew ∉ k1 :: k2 :: rest.map Prod.fst := by
    have h2 : ((k1 :: k2 :: rest.map Prod.fst) ++ [knew]).Nodup := by
      simpa using hnd'
    exact (List.nodup_cons.mp
      (((List.perm_append_singleton knew _).nodup_iff).mp h2)).1
  have hlknew : lookupKey ((k1, v1) :: (k2, v2) :: rest) knew = none := by
    rw [lookupKey_eq_none]
    intro hmem
    exact hknewnotin (by simpa using hmem)
  have hset : (⟨(k1, v1) :: (k2, v2) :: rest,
        k2 :: (rest.map Prod.fst ++ [k1]), c⟩ : LRU Key Value).set knew vnew
      = ⟨(k1, v1) :: (rest ++ [(knew, vnew)]),
          (rest.map Prod.fst ++ [k1]) ++ [knew], c⟩ := by
    rw [set_eq_evict vnew hlknew hlen rfl]
    simp [eraseKey, hk1ne2]
  rw [hfill, hget, hset]
  constructor
  · have hnone : lookupKey ((k1, v1) :: (rest ++ [(knew, vnew)])) k2
        = none := by
      rw [lookupKey_eq_none]
      intro hmem
      simp only [List.map_cons, List.map_append, List.map_nil] at hmem
      rcases List.mem_cons.mp hmem with heq | hmem2
      · exact hk1ne2 heq.symm
      · exact hk2notin hmem2
    rw [get_eq_none hnone]
  · have hsome : lookupKey ((k1, v1) :: (rest ++ [(knew, vnew)])) k1
        = some v1 := by simp [lookupKey]
    rw [get_eq_some hsome]

theorem recency_refresh_witness :
    ((((((init 3 : LRU Nat Nat).run
        (setsOf ((1, 11) :: (2, 12) :: [(3, 13)]))).get 1).2).set 4 14).get
          2).1 = none ∧
    ((((((init 3 : LRU Nat Nat).run
        (setsOf ((1, 11) :: (2, 12) :: [(3, 13)]))).get 1).2).set 4 14).get
          1).1 = some 11 :=
  recency_refresh 3 1 11 2 12 [(3, 13)] 4 14 (by decide) (by decide) rfl

/-- C7: `set` twice with the same key and value: the second call leaves the
size unchanged and a following `get` returns the value; more generally,
`set` on a key already present overwrites the value in place, bumps the
key's recency exactly as `get` does, and leaves the size unchanged. -/
theorem idempotent_update (s : LRU Key Value) (k : Key) (v : Value) :
    ((s.set k v).set k v).size = (s.set k v).size ∧
    (((s.set k v).set k v).get k).1 = some v ∧
    ∀ w, lookupKey s.cache k = some w →
      (s.set k v).size = s.size ∧
      (s.set k v).cache = updateKey s.cache k v ∧
      (s.set k v).order = ((s.get k).2).order := by
  have h1 : lookupKey (s.set k v).cache k = some v := lookupKey_set_self s k v
  refine ⟨?_, ?_, ?_⟩
  · rw [set_eq_update v h1]
    show (updateKey (s.set k v).cache k v).length = (s.set k v).cache.length
    exact length_updateKey _ k v
  · rw [set_eq_update v h1]
    have h3 : lookupKey (updateKey (s.set k v).cache k v) k = some v :=
      lookupKey_updateKey_self v h1
    rw [get_eq_some h3]
  · intro w hw
    rw [set_eq_update v hw, get_eq_some hw]
    exact ⟨length_updateKey _ k v, rfl, rfl⟩

theorem idempotent_update_witness :
    ((((⟨[(1, 5)], [1], 3⟩ : LRU Nat Nat).set 1 7).set 1 7).size
        = ((⟨[(1, 5)], [1], 3⟩ : LRU Nat Nat).set 1 7).size) ∧
    (((((⟨[(1, 5)], [1], 3⟩ : LRU Nat Nat).set 1 7).set 1 7).get 1).1
        = some 7) ∧
    (((⟨[(1, 5)], [1], 3⟩ : LRU Nat Nat).set 1 7).size
        = (⟨[(1, 5)], [1], 3⟩ : LRU Nat Nat).size ∧
      ((⟨[(1, 5)], [1], 3⟩ : LRU Nat Nat).set 1 7).cache
        = updateKey (⟨[(1, 5)], [1], 3⟩ : LRU Nat Nat).cache 1 7 ∧
      ((⟨[(1, 5)], [1], 3⟩ : LRU Nat Nat).set 1 7).order
        = (((⟨[(1, 5)], [1], 3⟩ : LRU Nat Nat).get 1).2).order) :=
  ⟨(idempotent_update (⟨[(1, 5)], [1], 3⟩ : LRU Nat Nat) 1 7).1,
   (idempotent_update (⟨[(1, 5)], [1], 3⟩ : LRU Nat Nat) 1 7).2.1,
   (idempotent_update (⟨[(1, 5)], [1], 3⟩ : LRU Nat Nat) 1 7).2.2 5
     (by decide)⟩

end LRU

/-! ### The chained hash table (`src/10-hashtable/hashtable.cc`) -/

/-- State of `containers::Hashtable`: the bucket vector (`std::vector` of
`std::forward_list` chains) and the element count `nelems`. -/
structure Hashtable (Key Value : Type) where
  buckets : List (List (Key × Value))
  nelems : Nat
deriving DecidableEq

namespace Hashtable

/-- The load factor `alpha{0.75}` triggering a rehash. -/
def alpha : ℚ := 0.75

/-- Model of `Hashtable::rehash`: allocate `count` fresh buckets and move every
entry of every bucket, in iteration order, to bucket
`hasher(e.first) % count` of the new vector via `emplace_front`. -/
def rehash (hasher : Key → Nat) (buckets : List (List (Key × Value)))
    (count : Nat) : List (List (Key × Value)) :=
  buckets.foldl
    (fun acc b =>
      b.foldl
        (fun acc2 e =>
          acc2.set (hasher e.1 % count)
            (e :: acc2.getD (hasher e.1 % count) []))
        acc)
    (List.replicate count [])

/-- Model of `Hashtable::insert`: overwrite in place when the key is already in its
bucket, otherwise push the entry onto the front of the chain, bump
`nelems`, and rehash to twice the bucket count when the load factor
reaches `alpha`. -/
def insert (hasher : Key → Nat) (t : Hashtable Key Value) (k : Key)
    (v : Value) : Hashtable Key Value :=
  let h := hasher k % t.buckets.length
  let b := t.buckets.getD h []
  match lookupKey b k with
  | some _ => { t with buckets := t.buckets.set h (updateKey b k v) }
  | none =>
      let buckets1 := t.buckets.set h ((k, v) :: b)
      let n1 := t.nelems + 1
      if alpha ≤ (n1 : ℚ) / (t.buckets.length : ℚ) then
        ⟨rehash hasher buckets1 (t.buckets.length * 2), n1⟩
      else
        ⟨buckets1, n1⟩

/-- Model of `Hashtable::find`: scan the chain of the key's bucket. -/
def find (hasher : Key → Nat) (t : Hashtable Key Value) (k : Key) :
    Option Value :=
  lookupKey (t.buckets.getD (hasher k % t.buckets.length) []) k

/-- Model of `Hashtable::erase`: apply `remove_if` to every matching entry from the key's
bucket, counting removals, and decrement `nelems` once if the count is
non-zero. -/
def erase (hasher : Key → Nat) (t : Hashtable Key Value) (k : Key) :
    Hashtable Key Value :=
  let h := hasher k % t.buckets.length
  let b := t.buckets.getD h []
  let cnt := b.countP fun p => decide (p.1 = k)
  { buckets := t.buckets.set h (b.filter fun p => ! decide (p.1 = k)),
    nelems := if cnt ≠ 0 then t.nelems - 1 else t.nelems }

/-- Model of `Hashtable::size`. -/
def size (t : Hashtable Key Value) : Nat := t.nelems

/-- Model of `Hashtable::nbuckets`. -/
def nbuckets (t : Hashtable Key Value) : Nat := t.buckets.length

/-- The state built by the constructor: 8 empty buckets, no elements. -/
def init : Hashtable Key Value := ⟨List.replicate 8 [], 0⟩

/-- All entries of the table, bucket by bucket. -/
def entries (t : Hashtable Key Value) : List (Key × Value) :=
  t.buckets.flatten

/-- The table reached from the constructor by the given `insert` calls. -/
def insRun (hasher : Key → Nat) (kvs : List (Key × Value)) :
    Hashtable Key Value :=
  kvs.foldl (fun t p => t.insert hasher p.1 p.2) init

/-- A table reachable from the constructor by a sequence of inserts. -/
def ReachableH (hasher : Key → Nat) (t : Hashtable Key Value) : Prop :=
  ∃ kvs, t = insRun hasher kvs

/-- Well-formedness: at least one bucket, every entry sits in the bucket
its hash selects, no key occurs twice anywhere, and `nelems` counts the
entries. -/
def WF (hasher : Key → Nat) (t : Hashtable Key Value) : Prop :=
  0 < t.buckets.length ∧
  (∀ i, ∀ kk ∈ (t.buckets.getD i []).map Prod.fst,
      hasher kk % t.buckets.length = i) ∧
  ((entries t).map Prod.fst).Nodup ∧
  t.nelems = (entries t).length

/-- One `emplace_front` step of the copy loop in `Hashtable::rehash`. -/
def rehashStep (hasher : Key → Nat) (count : Nat)
    (acc : List (List (Key × Value))) (e : Key × Value) :
    List (List (Key × Value)) :=
  acc.set (hasher e.1 % count) (e :: acc.getD (hasher e.1 % count) [])

/-- The invariant of the rehash copy loop: the accumulator has `count`
buckets and every entry already moved sits in the bucket its hash
selects. -/
def BucketsWF (hasher : Key → Nat) (count : Nat)
    (acc : List (List (Key × Value))) : Prop :=
  acc.length = count ∧
  ∀ i, ∀ kk ∈ (acc.getD i []).map Prod.fst, hasher kk % count = i

/-! #### Generic facts about `getD`, `set`, and `flatten` -/

theorem getD_set_self {α : Type} (l : List α) (i : Nat) (x d : α)
    (hi : i < l.length) : (l.set i x).getD i d = x := by
  rw [List.getD_eq_getElem?_getD, List.getElem?_set_self hi]
  rfl

theorem getD_set_ne {α : Type} (l : List α) {i j : Nat} (x d : α)
    (hne : i ≠ j) : (l.set i x).getD j d = l.getD j d := by
  rw [List.getD_eq_getElem?_getD, List.getElem?_set_ne hne,
    ← List.getD_eq_getElem?_getD]

theorem getD_replicate_nil {α : Type} (count i : Nat) :
    (List.replicate count ([] : List α)).getD i [] = [] := by
  rw [List.getD_eq_getElem?_getD, List.getElem?_replicate]
  by_cases h : i < count <;> simp [h]

theorem set_getD_self {α : Type} (l : List α) (i : Nat) (d : α)
    (hi : i < l.length) : l.set i (l.getD i d) = l := by
  induction l generalizing i with
  | nil => simp at hi
  | cons hd tl ih =>
      cases i with
      | zero => simp
      | succ j =>
          have hj : j < tl.length := by simpa using hi
          rw [List.getD_cons_succ, List.set_cons_succ, ih j hj]

theorem getD_mem_of_lt {α : Type} (l : List α) (i : Nat) (d : α)
    (hi : i < l.length) : l.getD i d ∈ l := by
  rw [List.getD_eq_getElem?_getD, List.getElem?_eq_getElem hi]
  exact List.getElem_mem hi

theorem flatten_replicate_nil {α : Type} (count : Nat) :
    (List.replicate count ([] : List α)).flatten = [] := by
  induction count with
  | zero => rfl
  | succ j ih => simp [ih]

/-- Consing an element onto bucket `i` adds exactly that element to the
flattened contents, up to order. -/
theorem flatten_set_cons {α : Type} (l : List (List α)) (i : Nat) (a : α)
    (hi : i < l.length) :
    ((l.set i (a :: l.getD i [])).flatten).Perm (a :: l.flatten) := by
  induction l generalizing i with
  | nil => simp at hi
  | cons hd tl ih =>
      cases i with
      | zero =>
          rw [List.getD_cons_zero, List.set_cons_zero, List.flatten_cons,
            List.flatten_cons, List.cons_append]
      | succ j =>
          have hj : j < tl.length := by simpa using hi
          rw [List.set_cons_succ, List.getD_cons_succ, List.flatten_cons,
            List.flatten_cons]
          exact (List.Perm.append_left hd (ih j hj)).trans List.perm_middle

/-! #### The rehash loop -/

theorem rehash_eq_foldl (hasher : Key → Nat)
    (buckets : List (List (Key × Value))) (count : Nat) :
    rehash hasher buckets count
      = buckets.flatten.foldl (rehashStep hasher count)
          (List.replicate count []) := by
  rw [rehash, List.foldl_flatten]
  rfl

theorem bucketsWF_step {hasher : Key → Nat} {count : Nat}
    {acc : List (List (Key × Value))} (hacc : BucketsWF hasher count acc)
    (hcount : 0 < count) (e : Key × Value) :
    BucketsWF hasher count (rehashStep hasher count acc e) ∧
    ((rehashStep hasher count acc e).flatten).Perm (e :: acc.flatten) := by
  obtain ⟨hlen, hplace⟩ := hacc
  have hlt : hasher e.1 % count < acc.length := by
    rw [hlen]; exact Nat.mod_lt _ hcount
  refine ⟨⟨by simp [rehashStep, hlen], ?_⟩, flatten_set_cons _ _ _ hlt⟩
  intro i kk hkk
  by_cases hi : hasher e.1 % count = i
  · subst hi
    rw [rehashStep, getD_set_self _ _ _ _ hlt, List.map_cons] at hkk
    rcases List.mem_cons.mp hkk with heq | hmem
    · rw [heq]
    · exact hplace _ kk hmem
  · rw [rehashStep, getD_set_ne _ _ _ hi] at hkk
    exact hplace i kk hkk

theorem bucketsWF_foldl {hasher : Key → Nat} {count : Nat} (hcount : 0 < count)
    (es : List (Key × Value)) :
    ∀ acc : List (List (Key × Value)), BucketsWF hasher count acc →
    BucketsWF hasher count (es.foldl (rehashStep hasher count) acc) ∧
    ((es.foldl (rehashStep hasher count) acc).flatten).Perm
      (es ++ acc.flatten) := by
  induction es with
  | nil => intro acc hacc; exact ⟨hacc, by simp⟩
  | cons e rest ih =>
      intro acc hacc
      obtain ⟨hwf1, hperm1⟩ := bucketsWF_step hacc hcount e
      obtain ⟨hwf2, hperm2⟩ := ih (rehashStep hasher count acc e) hwf1
      refine ⟨hwf2, hperm2.trans ?_⟩
      have h3 : (rest ++ (rehashStep hasher count acc e).flatten).Perm
          (rest ++ e :: acc.flatten) := List.Perm.append_left rest hperm1
      have h4 : (rest ++ e :: acc.flatten).Perm ((e :: rest) ++ acc.flatten) :=
        List.perm_middle
      exact h3.trans h4

/-- Applying `Hashtable::rehash` with a positive bucket count: the result has exactly
`count` buckets, holds a permutation of the original entries, and places
every entry in the bucket its hash (mod `count`) selects. -/
theorem rehash_spec (hasher : Key → Nat)
    (buckets : List (List (Key × Value))) {count : Nat} (hcount : 0 < count) :
    (rehash hasher buckets count).length = count ∧
    ((rehash hasher buckets count).flatten).Perm buckets.flatten ∧
    ∀ i, ∀ kk ∈ ((rehash hasher buckets count).getD i []).map Prod.fst,
      hasher kk % count = i := by
  have hinit : BucketsWF hasher count
      (List.replicate count ([] : List (Key × Value))) := by
    refine ⟨List.length_replicate count [], ?_⟩
    intro i kk hkk
    rw [getD_replicate_nil] at hkk
    simp at hkk
  obtain ⟨⟨hlen, hplace⟩, hperm⟩ :=
    bucketsWF_foldl hcount buckets.flatten _ hinit
  rw [← rehash_eq_foldl] at hlen hplace hperm
  refine ⟨hlen, hperm.trans ?_, hplace⟩
  rw [flatten_replicate_nil, List.append_nil]

/-! #### Characterising `find` on well-formed tables -/

theorem mem_of_lookupKey {l : List (Key × Value)} {k : Key} {v : Value}
    (h : lookupKey l k = some v) : (k, v) ∈ l := by
  induction l with
  | nil => simp [lookupKey] at h
  | cons p rest ih =>
      obtain ⟨k', v'⟩ := p
      by_cases hk : k' = k
      · subst hk
        simp only [lookupKey, eq_self_iff_true, if_true,
          Option.some.injEq] at h
        subst h
        exact List.mem_cons_self _ _
      · simp only [lookupKey, hk, if_false] at h
        exact List.mem_cons_of_mem _ (ih h)

theorem bucket_sub_entries {t : Hashtable Key Value} {i : Nat}
    (hi : i < t.buckets.length) {p : Key × Value}
    (hp : p ∈ t.buckets.getD i []) : p ∈ entries t :=
  List.mem_flatten.mpr ⟨_, getD_mem_of_lt _ i [] hi, hp⟩

theorem bucket_keys_nodup {hasher : Key → Nat} {t : Hashtable Key Value}
    (hwf : WF hasher t) (i : Nat) :
    ((t.buckets.getD i []).map Prod.fst).Nodup := by
  by_cases hi : i < t.buckets.length
  · have hsub : List.Sublist (t.buckets.getD i []) (entries t) :=
      List.sublist_flatten_of_mem (getD_mem_of_lt _ i [] hi)
    exact List.Nodup.sublist (hsub.map Prod.fst) hwf.2.2.1
  · rw [List.getD_eq_getElem?_getD, List.getElem?_eq_none (by omega)]
    simp

theorem find_eq_some_iff {hasher : Key → Nat} {t : Hashtable Key Value}
    (hwf : WF hasher t) (k : Key) (v : Value) :
    find hasher t k = some v ↔ (k, v) ∈ entries t := by
  obtain ⟨hpos, hplace, hnd, hcount⟩ := hwf
  constructor
  · intro h
    exact bucket_sub_entries (Nat.mod_lt _ hpos) (mem_of_lookupKey h)
  · intro hmem
    obtain ⟨b, hb, hpb⟩ := List.mem_flatten.mp hmem
    obtain ⟨i, hi, hbi⟩ := List.mem_iff_getElem.mp hb
    have hgetD : t.buckets.getD i [] = b := by
      rw [List.getD_eq_getElem?_getD, List.getElem?_eq_getElem hi, hbi]
      rfl
    have hki : hasher k % t.buckets.length = i := by
      apply hplace i
      rw [hgetD]
      exact List.mem_map.mpr ⟨(k, v), hpb, rfl⟩
    have hbnd : (b.map Prod.fst).Nodup := by
      rw [← hgetD]
      exact bucket_keys_nodup ⟨hpos, hplace, hnd, hcount⟩ i
    rw [find, hki, hgetD]
    exact lookupKey_of_mem_nodup hbnd hpb

theorem find_eq_none_iff {hasher : Key → Nat} {t : Hashtable Key Value}
    (hwf : WF hasher t) (k : Key) :
    find hasher t k = none ↔ k ∉ (entries t).map Prod.fst := by
  constructor
  · intro h hmem
    obtain ⟨p, hp, hpk⟩ := List.mem_map.mp hmem
    obtain ⟨pk, pv⟩ := p
    cases hpk
    rw [(find_eq_some_iff hwf _ pv).mpr hp] at h
    exact Option.noConfusion h
  · intro hnmem
    rcases hfind : find hasher t k with _ | v
    · rfl
    · exact absurd (List.mem_map.mpr ⟨(k, v),
        (find_eq_some_iff hwf k v).mp hfind, rfl⟩) hnmem

/-! #### Rehashing a well-formed table -/

theorem wf_rehash {hasher : Key → Nat} {t : Hashtable Key Value}
    (hwf : WF hasher t) {count : Nat} (hcount : 0 < count) :
    WF hasher (⟨rehash hasher t.buckets count, t.nelems⟩ :
      Hashtable Key Value) ∧
    (entries (⟨rehash hasher t.buckets count, t.nelems⟩ :
      Hashtable Key Value)).Perm (entries t) := by
  obtain ⟨hpos, hplace, hnd, hcountEq⟩ := hwf
  obtain ⟨hlen, hperm, hplace2⟩ := rehash_spec hasher t.buckets hcount
  have hpermE : (entries (⟨rehash hasher t.buckets count, t.nelems⟩ :
      Hashtable Key Value)).Perm (entries t) := hperm
  refine ⟨⟨?_, ?_, ?_, ?_⟩, hpermE⟩
  · show 0 < (rehash hasher t.buckets count).length
    rw [hlen]
    exact hcount
  · intro i kk hkk
    show hasher kk % (rehash hasher t.buckets count).length = i
    rw [hlen]
    exact hplace2 i kk hkk
  · exact ((hpermE.map Prod.fst).nodup_iff).mpr hnd
  · show t.nelems = (entries (⟨rehash hasher t.buckets count, t.nelems⟩ :
      Hashtable Key Value)).length
    rw [hcountEq]
    exact hpermE.length_eq.symm

theorem find_rehash {hasher : Key → Nat} {t : Hashtable Key Value}
    (hwf : WF hasher t) {count : Nat} (hcount : 0 < count) (k : Key) :
    find hasher (⟨rehash hasher t.buckets count, t.nelems⟩ :
      Hashtable Key Value) k = find hasher t k := by
  obtain ⟨hwf2, hperm⟩ := wf_rehash hwf hcount
  rcases hfind : find hasher t k with _ | v
  · rw [find_eq_none_iff hwf2 k]
    intro hmem
    rw [find_eq_none_iff hwf k] at hfind
    exact hfind ((hperm.map Prod.fst).mem_iff.mp hmem)
  · rw [find_eq_some_iff hwf2 k v]
    exact hperm.mem_iff.mpr ((find_eq_some_iff hwf k v).mp hfind)

/-! #### `insert`: one equation lemma per source branch, and preservation -/

theorem insert_eq_update {hasher : Key → Nat} {t : Hashtable Key Value}
    {k : Key} {w : Value} (v : Value) (h : find hasher t k = some w) :
    t.insert hasher k v = ⟨t.buckets.set (hasher k % t.buckets.length)
      (updateKey (t.buckets.getD (hasher k % t.buckets.length) []) k v),
      t.nelems⟩ := by
  rw [find] at h
  simp only [Hashtable.insert]
  rw [h]

theorem insert_eq_grow {hasher : Key → Nat} {t : Hashtable Key Value}
    {k : Key} (v : Value) (h : find hasher t k = none)
    (hload : alpha ≤ ((t.nelems + 1 : Nat) : ℚ) / (t.buckets.length : ℚ)) :
    t.insert hasher k v
      = ⟨rehash hasher (t.buckets.set (hasher k % t.buckets.length)
            ((k, v) :: t.buckets.getD (hasher k % t.buckets.length) []))
          (t.buckets.length * 2), t.nelems + 1⟩ := by
  rw [find] at h
  simp only [Hashtable.insert]
  rw [h, if_pos hload]

theorem insert_eq_push {hasher : Key → Nat} {t : Hashtable Key Value}
    {k : Key} (v : Value) (h : find hasher t k = none)
    (hload : ¬ alpha ≤ ((t.nelems + 1 : Nat) : ℚ) / (t.buckets.length : ℚ)) :
    t.insert hasher k v
      = ⟨t.buckets.set (hasher k % t.buckets.length)
          ((k, v) :: t.buckets.getD (hasher k % t.buckets.length) []),
        t.nelems + 1⟩ := by
  rw [find] at h
  simp only [Hashtable.insert]
  rw [h, if_neg hload]

/-- The state after pushing a fresh entry onto its chain (before the load
check) is well formed and holds exactly the old entries plus the new one. -/
theorem wf_push {hasher : Key → Nat} {t : Hashtable Key Value}
    (hwf : WF hasher t) {k : Key} (v : Value) (h : find hasher t k = none) :
    WF hasher (⟨t.buckets.set (hasher k % t.buckets.length)
        ((k, v) :: t.buckets.getD (hasher k % t.buckets.length) []),
      t.nelems + 1⟩ : Hashtable Key Value) ∧
    (entries (⟨t.buckets.set (hasher k % t.buckets.length)
        ((k, v) :: t.buckets.getD (hasher k % t.buckets.length) []),
      t.nelems + 1⟩ : Hashtable Key Value)).Perm ((k, v) :: entries t) := by
  obtain ⟨hpos, hplace, hnd, hcount⟩ := hwf
  have hlt : hasher k % t.buckets.length < t.buckets.length :=
    Nat.mod_lt _ hpos
  have hpermE := flatten_set_cons t.buckets (hasher k % t.buckets.length)
    (k, v) hlt
  have hkabs : k ∉ (entries t).map Prod.fst :=
    (find_eq_none_iff ⟨hpos, hplace, hnd, hcount⟩ k).mp h
  refine ⟨⟨?_, ?_, ?_, ?_⟩, hpermE⟩
  · show 0 < (t.buckets.set _ _).length
    rw [List.length_set]
    exact hpos
  · intro i kk hkk
    show hasher kk % (t.buckets.set _ _).length = i
    rw [List.length_set]
    by_cases hi : hasher k % t.buckets.length = i
    · subst hi
      rw [getD_set_self _ _ _ _ hlt, List.map_cons] at hkk
      rcases List.mem_cons.mp hkk with heq | hmem
      · rw [heq]
      · exact hplace _ kk hmem
    · rw [getD_set_ne _ _ _ hi] at hkk
      exact hplace i kk hkk
  · refine ((hpermE.map Prod.fst).nodup_iff).mpr ?_
    rw [List.map_cons]
    exact List.nodup_cons.mpr ⟨hkabs, hnd⟩
  · show t.nelems + 1
      = ((t.buckets.set (hasher k % t.buckets.length)
        ((k, v) :: t.buckets.getD (hasher k % t.buckets.length) [])).flatten).length
    rw [hpermE.length_eq, List.length_cons]
    rw [show t.nelems = (entries t).length from hcount]
    rfl

theorem insert_spec_new {hasher : Key → Nat} {t : Hashtable Key Value}
    (hwf : WF hasher t) {k : Key} (v : Value)
    (h : find hasher t k = none) :
    WF hasher (t.insert hasher k v) ∧
    (entries (t.insert hasher k v)).Perm ((k, v) :: entries t) ∧
    (t.insert hasher k v).nelems = t.nelems + 1 ∧
    (t.insert hasher k v).nbuckets
      = if alpha ≤ ((t.nelems + 1 : Nat) : ℚ) / (t.buckets.length : ℚ)
        then t.buckets.length * 2 else t.buckets.length := by
  obtain ⟨hwfP, hpermP⟩ := wf_push hwf v h
  by_cases hload : alpha ≤ ((t.nelems + 1 : Nat) : ℚ) / (t.buckets.length : ℚ)
  · rw [insert_eq_grow v h hload]
    have hcount2 : 0 < t.buckets.length * 2 := by
      have := hwf.1
      omega
    obtain ⟨hwfR, hpermR⟩ := wf_rehash hwfP hcount2
    refine ⟨hwfR, hpermR.trans hpermP, rfl, ?_⟩
    show (rehash hasher _ (t.buckets.length * 2)).length = _
    rw [if_pos hload, (rehash_spec hasher _ hcount2).1]
  · rw [insert_eq_push v h hload]
    refine ⟨hwfP, hpermP, rfl, ?_⟩
    show (t.buckets.set _ _).length = _
    rw [if_neg hload, List.length_set]

/-- Overwriting an existing key changes no key of the table, no bucket
count, and no element count, and stays well formed. -/
theorem insert_spec_update {hasher : Key → Nat} {t : Hashtable Key Value}
    (hwf : WF hasher t) {k : Key} {w : Value} (v : Value)
    (h : find hasher t k = some w) :
    WF hasher (t.insert hasher k v) ∧
    (entries (t.insert hasher k v)).map Prod.fst
      = (entries t).map Prod.fst ∧
    (t.insert hasher k v).nelems = t.nelems ∧
    (t.insert hasher k v).nbuckets = t.nbuckets := by
  obtain ⟨hpos, hplace, hnd, hcount⟩ := hwf
  have hlt : hasher k % t.buckets.length < t.buckets.length :=
    Nat.mod_lt _ hpos
  rw [insert_eq_update v h]
  have hkeys : ((t.buckets.set (hasher k % t.buckets.length)
      (updateKey (t.buckets.getD (hasher k % t.buckets.length) []) k v)).flatten).map
        Prod.fst = (t.buckets.flatten).map Prod.fst := by
    rw [List.map_flatten, List.map_set, map_fst_updateKey,
      show (t.buckets.getD (hasher k % t.buckets.length) []).map Prod.fst
          = (t.buckets.map (List.map Prod.fst)).getD
              (hasher k % t.buckets.length) []
        from (List.getD_map _ ([] : List (Key × Value)) _).symm,
      set_getD_self _ _ _ (by simpa using hlt), List.map_flatten]
  refine ⟨⟨?_, ?_, ?_, ?_⟩, hkeys, rfl, ?_⟩
  · show 0 < (t.buckets.set _ _).length
    rw [List.length_set]
    exact hpos
  · intro i kk hkk
    show hasher kk % (t.buckets.set _ _).length = i
    rw [List.length_set]
    by_cases hi : hasher k % t.buckets.length = i
    · subst hi
      rw [getD_set_self _ _ _ _ hlt, map_fst_updateKey] at hkk
      exact hplace _ kk hkk
    · rw [getD_set_ne _ _ _ hi] at hkk
      exact hplace i kk hkk
  · show (((t.buckets.set (hasher k % t.buckets.length)
        (updateKey (t.buckets.getD (hasher k % t.buckets.length) []) k v)).flatten).map
          Prod.fst).Nodup
    rw [hkeys]
    exact hnd
  · show t.nelems
      = ((t.buckets.set (hasher k % t.buckets.length)
        (updateKey (t.buckets.getD (hasher k % t.buckets.length) []) k v)).flatten).length
    have hlen2 := congrArg List.length hkeys
    rw [List.length_map, List.length_map] at hlen2
    calc t.nelems = (t.buckets.flatten).length := hcount
      _ = _ := hlen2.symm
  · show (t.buckets.set _ _).length = t.buckets.length
    exact List.length_set _ _ _

theorem wf_insert {hasher : Key → Nat} {t : Hashtable Key Value}
    (hwf : WF hasher t) (k : Key) (v : Value) :
    WF hasher (t.insert hasher k v) := by
  rcases h : find hasher t k with _ | w
  · exact (insert_spec_new hwf v h).1
  · exact (insert_spec_update hwf v h).1

theorem wf_init (hasher : Key → Nat) :
    WF hasher (init : Hashtable Key Value) := by
  refine ⟨by simp [init], ?_, ?_, ?_⟩
  · intro i kk hkk
    rw [show (init : Hashtable Key Value).buckets
        = List.replicate 8 [] from rfl, getD_replicate_nil] at hkk
    simp at hkk
  · show (((init : Hashtable Key Value).buckets.flatten).map Prod.fst).Nodup
    rw [show (init : Hashtable Key Value).buckets
        = List.replicate 8 [] from rfl, flatten_replicate_nil]
    simp
  · show (0 : Nat) = ((init : Hashtable Key Value).buckets.flatten).length
    rw [show (init : Hashtable Key Value).buckets
        = List.replicate 8 [] from rfl, flatten_replicate_nil]
    rfl

theorem wf_insRun (hasher : Key → Nat) (kvs : List (Key × Value)) :
    WF hasher (insRun hasher kvs) := by
  suffices h : ∀ t : Hashtable Key Value, WF hasher t →
      WF hasher (kvs.foldl (fun t p => t.insert hasher p.1 p.2) t) from
    h init (wf_init hasher)
  induction kvs with
  | nil => intro t hwf; exact hwf
  | cons p rest ih =>
      intro t hwf
      exact ih _ (wf_insert hwf p.1 p.2)

theorem wf_of_reachableH {hasher : Key → Nat} {t : Hashtable Key Value}
    (h : ReachableH hasher t) : WF hasher t := by
  obtain ⟨kvs, rfl⟩ := h
  exact wf_insRun hasher kvs

/-! #### `erase` -/

theorem erase_def (hasher : Key → Nat) (t : Hashtable Key Value) (k : Key) :
    t.erase hasher k = ⟨t.buckets.set (hasher k % t.buckets.length)
      ((t.buckets.getD (hasher k % t.buckets.length) []).filter
        fun p => ! decide (p.1 = k)),
      if (t.buckets.getD (hasher k % t.buckets.length) []).countP
          (fun p => decide (p.1 = k)) ≠ 0
        then t.nelems - 1 else t.nelems⟩ := rfl

theorem countP_keys_le_one {l : List (Key × Value)} {k : Key}
    (hnd : (l.map Prod.fst).Nodup) :
    l.countP (fun p => decide (p.1 = k)) ≤ 1 := by
  induction l with
  | nil => simp
  | cons p rest ih =>
      obtain ⟨k', v'⟩ := p
      simp only [List.map_cons, List.nodup_cons] at hnd
      rw [List.countP_cons]
      by_cases hk : k' = k
      · subst hk
        have hz : rest.countP (fun p => decide (p.1 = k')) = 0 := by
          rw [List.countP_eq_zero]
          intro a ha hpa
          exact hnd.1 (List.mem_map.mpr ⟨a, ha, of_decide_eq_true hpa⟩)
        simp [hz]
      · simp only [hk, decide_False, if_false, Nat.add_zero]
        exact ih hnd.2

theorem lookupKey_filter_self (l : List (Key × Value)) (k : Key) :
    lookupKey (l.filter fun p => ! decide (p.1 = k)) k = none := by
  rw [lookupKey_eq_none]
  intro hmem
  obtain ⟨p, hp, hpk⟩ := List.mem_map.mp hmem
  have hkeep := (List.mem_filter.mp hp).2
  rw [hpk] at hkeep
  simp at hkeep

theorem lookupKey_filter_other (l : List (Key × Value)) {k k' : Key}
    (h : k' ≠ k) :
    lookupKey (l.filter fun p => ! decide (p.1 = k)) k' = lookupKey l k' := by
  induction l with
  | nil => rfl
  | cons p rest ih =>
      obtain ⟨k0, v0⟩ := p
      by_cases hk0 : k0 = k
      · subst hk0
        have hne : k0 ≠ k' := Ne.symm h
        simp [List.filter_cons, lookupKey, hne, ih]
      · by_cases hk0' : k0 = k'
        · subst hk0'
          simp [List.filter_cons, lookupKey, hk0]
        · simp [List.filter_cons, lookupKey, hk0, hk0', ih]

theorem flatten_set_sublist {α : Type} (l : List (List α)) (i : Nat)
    {x : List α} (hx : x.Sublist (l.getD i [])) :
    ((l.set i x).flatten).Sublist l.flatten := by
  induction l generalizing i with
  | nil => simp
  | cons hd tl ih =>
      cases i with
      | zero =>
          rw [List.set_cons_zero, List.flatten_cons, List.flatten_cons]
          exact List.Sublist.append (by simpa using hx) (List.Sublist.refl _)
      | succ j =>
          rw [List.set_cons_succ, List.flatten_cons, List.flatten_cons]
          exact List.Sublist.append (List.Sublist.refl _)
            (ih j (by simpa using hx))

theorem length_flatten_set {α : Type} (l : List (List α)) (i : Nat)
    (x : List α) (hi : i < l.length) :
    ((l.set i x).flatten).length + (l.getD i []).length
      = l.flatten.length + x.length := by
  induction l generalizing i with
  | nil => simp at hi
  | cons hd tl ih =>
      cases i with
      | zero =>
          rw [List.set_cons_zero, List.getD_cons_zero, List.flatten_cons,
            List.flatten_cons, List.length_append, List.length_append]
          omega
      | succ j =>
          have hj : j < tl.length := by simpa using hi
          rw [List.set_cons_succ, List.getD_cons_succ, List.flatten_cons,
            List.flatten_cons, List.length_append, List.length_append]
          have := ih j hj
          omega

theorem length_filter_not_countP {α : Type} (l : List α) (q : α → Bool) :
    (l.filter fun a => ! q a).length + l.countP q = l.length := by
  induction l with
  | nil => rfl
  | cons a rest ih =>
      by_cases hq : q a = true <;>
        simp [List.filter_cons, List.countP_cons, hq] <;> omega

/-- Well-formedness is also preserved by `erase`, so `WF` covers every
state any `insert`/`erase` history can produce from the constructor. -/
theorem wf_erase {hasher : Key → Nat} {t : Hashtable Key Value}
    (hwf : WF hasher t) (k : Key) : WF hasher (t.erase hasher k) := by
  obtain ⟨hpos, hplace, hnd, hcount⟩ := hwf
  have hlt : hasher k % t.buckets.length < t.buckets.length :=
    Nat.mod_lt _ hpos
  have hbnd := bucket_keys_nodup ⟨hpos, hplace, hnd, hcount⟩
    (hasher k % t.buckets.length)
  have hcnt1 : ((t.buckets.getD (hasher k % t.buckets.length) []).countP
      fun p => decide (p.1 = k)) ≤ 1 := countP_keys_le_one hbnd
  rw [erase_def]
  refine ⟨?_, ?_, ?_, ?_⟩
  · show 0 < (t.buckets.set _ _).length
    rw [List.length_set]
    exact hpos
  · intro i kk hkk
    show hasher kk % (t.buckets.set _ _).length = i
    rw [List.length_set]
    by_cases hi : hasher k % t.buckets.length = i
    · subst hi
      rw [getD_set_self _ _ _ _ hlt] at hkk
      apply hplace
      obtain ⟨p, hp, rfl⟩ := List.mem_map.mp hkk
      exact List.mem_map.mpr ⟨p, (List.filter_sublist _).subset hp, rfl⟩
    · rw [getD_set_ne _ _ _ hi] at hkk
      exact hplace i kk hkk
  · show (((t.buckets.set (hasher k % t.buckets.length)
        ((t.buckets.getD (hasher k % t.buckets.length) []).filter
          fun p => ! decide (p.1 = k))).flatten).map Prod.fst).Nodup
    have hsub := flatten_set_sublist t.buckets (hasher k % t.buckets.length)
      (x := (t.buckets.getD (hasher k % t.buckets.length) []).filter
        fun p => ! decide (p.1 = k))
      (List.filter_sublist _)
    exact hnd.sublist (hsub.map Prod.fst)
  · show (if (t.buckets.getD (hasher k % t.buckets.length) []).countP
        (fun p => decide (p.1 = k)) ≠ 0 then t.nelems - 1 else t.nelems)
      = ((t.buckets.set (hasher k % t.buckets.length)
        ((t.buckets.getD (hasher k % t.buckets.length) []).filter
          fun p => ! decide (p.1 = k))).flatten).length
    have hlen := length_flatten_set t.buckets (hasher k % t.buckets.length)
      ((t.buckets.getD (hasher k % t.buckets.length) []).filter
        fun p => ! decide (p.1 = k)) hlt
    have hfl := length_filter_not_countP
      (t.buckets.getD (hasher k % t.buckets.length) [])
      (fun p => decide (p.1 = k))
    have hcount' : t.nelems = t.buckets.flatten.length := hcount
    rcases Nat.le_one_iff_eq_zero_or_eq_one.mp hcnt1 with h0 | h1
    · rw [h0] at hfl ⊢
      rw [if_neg (by omega : ¬ (0 : Nat) ≠ 0)]
      omega
    · rw [h1] at hfl ⊢
      rw [if_pos (by omega : (1 : Nat) ≠ 0)]
      omega

/-- C8: on every well-formed table state (the well-formedness every
constructor-produced state and every `insert`/`erase` history maintains),
`erase k` removes the matching entry (at most one, by key uniqueness)
from its bucket, decrements the count by the number removed, keeps the
bucket count, makes `k` unfindable while every other key's lookup is
untouched; when `k` is absent the whole state is unchanged. -/
theorem erase_spec (hasher : Key → Nat) {t : Hashtable Key Value}
    (hwf : WF hasher t) (k : Key) :
    ((t.buckets.getD (hasher k % t.buckets.length) []).countP
        fun p => decide (p.1 = k)) ≤ 1 ∧
    (t.erase hasher k).nelems
      = t.nelems - ((t.buckets.getD (hasher k % t.buckets.length) []).countP
          fun p => decide (p.1 = k)) ∧
    (t.erase hasher k).nbuckets = t.nbuckets ∧
    find hasher (t.erase hasher k) k = none ∧
    (∀ k', k' ≠ k → find hasher (t.erase hasher k) k' = find hasher t k') ∧
    (find hasher t k = none → t.erase hasher k = t) := by
  obtain ⟨hpos, hplace, hnd, hcount⟩ := hwf
  have hlt : hasher k % t.buckets.length < t.buckets.length :=
    Nat.mod_lt _ hpos
  have hbnd := bucket_keys_nodup ⟨hpos, hplace, hnd, hcount⟩
    (hasher k % t.buckets.length)
  have hcnt1 : ((t.buckets.getD (hasher k % t.buckets.length) []).countP
      fun p => decide (p.1 = k)) ≤ 1 := countP_keys_le_one hbnd
  refine ⟨hcnt1, ?_, ?_, ?_, ?_, ?_⟩
  · rcases Nat.le_one_iff_eq_zero_or_eq_one.mp hcnt1 with h0 | h1
    · rw [erase_def, h0]
      simp
    · rw [erase_def, h1]
      simp
  · rw [erase_def]
    exact List.length_set _ _ _
  · rw [erase_def, find]
    show lookupKey ((t.buckets.set (hasher k % t.buckets.length) _).getD
      (hasher k % (t.buckets.set (hasher k % t.buckets.length) _).length)
      []) k = none
    rw [List.length_set, getD_set_self _ _ _ _ hlt]
    exact lookupKey_filter_self _ k
  · intro k' hk'
    rw [erase_def, find, find]
    show lookupKey ((t.buckets.set (hasher k % t.buckets.length) _).getD
      (hasher k' % (t.buckets.set (hasher k % t.buckets.length) _).length)
      []) k' = _
    rw [List.length_set]
    by_cases hsame : hasher k % t.buckets.length
        = hasher k' % t.buckets.length
    · rw [← hsame, getD_set_self _ _ _ _ hlt]
      exact lookupKey_filter_other _ hk'
    · rw [getD_set_ne _ _ _ hsame]
  · intro habs
    rw [find] at habs
    have hknotin : k ∉ (t.buckets.getD (hasher k % t.buckets.length)
        []).map Prod.fst := lookupKey_eq_none.mp habs
    have hfilter : (t.buckets.getD (hasher k % t.buckets.length) []).filter
        (fun p => ! decide (p.1 = k))
        = t.buckets.getD (hasher k % t.buckets.length) [] := by
      rw [List.filter_eq_self]
      intro p hp
      have : p.1 ≠ k := fun hh =>
        hknotin (List.mem_map.mpr ⟨p, hp, hh⟩)
      simp [this]
    have hzero : (t.buckets.getD (hasher k % t.buckets.length) []).countP
        (fun p => decide (p.1 = k)) = 0 := by
      rw [List.countP_eq_zero]
      intro p hp hdp
      exact hknotin (List.mem_map.mpr ⟨p, hp, of_decide_eq_true hdp⟩)
    rw [erase_def, hfilter, hzero, set_getD_self _ _ _ hlt]
    simp

/-- C6: rehashing a table reachable by inserts (to the doubled bucket
count the source always requests) preserves the entries exactly — a
permutation, so nothing is lost or duplicated — leaves every key's `find`
result unchanged, and leaves `size()` unchanged. -/
theorem rehash_preserves_data (hasher : Key → Nat) {t : Hashtable Key Value}
    (hreach : ReachableH hasher t) :
    ((⟨rehash hasher t.buckets (t.buckets.length * 2), t.nelems⟩ :
        Hashtable Key Value).entries).Perm t.entries ∧
    (∀ k, find hasher (⟨rehash hasher t.buckets (t.buckets.length * 2),
        t.nelems⟩ : Hashtable Key Value) k = find hasher t k) ∧
    (⟨rehash hasher t.buckets (t.buckets.length * 2), t.nelems⟩ :
        Hashtable Key Value).size = t.size := by
  have hwf := wf_of_reachableH hreach
  have hcount2 : 0 < t.buckets.length * 2 := by
    have := hwf.1
    omega
  exact ⟨(wf_rehash hwf hcount2).2, fun k => find_rehash hwf hcount2 k, rfl⟩

/-! #### The load-factor trajectory of the spec scenario -/

theorem insRun_append_single (hasher : Key → Nat)
    (kvs : List (Key × Value)) (p : Key × Value) :
    insRun hasher (kvs ++ [p])
      = (insRun hasher kvs).insert hasher p.1 p.2 := by
  rw [insRun, insRun, List.foldl_append]
  rfl

/-- The bucket-count recurrence: starting from 8 buckets, the `n`-th fresh
insert doubles to 16 exactly at `n = 6` (since `6/8 = 0.75`) and no other
doubling happens within the first 9 inserts. -/
theorem nbuckets_recurrence (n : Nat) (hn : n ≤ 8) :
    (if alpha ≤ ((n + 1 : Nat) : ℚ)
          / (Nat.cast (if n ≤ 5 then (8 : Nat) else 16) : ℚ)
      then (if n ≤ 5 then (8 : Nat) else 16) * 2
      else (if n ≤ 5 then (8 : Nat) else 16))
    = if n + 1 ≤ 5 then (8 : Nat) else 16 := by
  interval_cases n <;> norm_num [alpha]

/-- Filling a fresh table with up to nine pairwise-distinct keys: the
table stays well formed, counts the inserts, holds exactly the inserted
pairs, and has 8 buckets up to the fifth insert and 16 afterwards. -/
theorem insRun_fill9 (hasher : Key → Nat) (kvs : List (Key × Value))
    (hnd : (kvs.map Prod.fst).Nodup) (hlen : kvs.length ≤ 9) :
    WF hasher (insRun hasher kvs) ∧
    (insRun hasher kvs).nelems = kvs.length ∧
    (entries (insRun hasher kvs)).Perm kvs ∧
    (insRun hasher kvs).nbuckets = if kvs.length ≤ 5 then 8 else 16 := by
  induction kvs using List.reverseRecOn with
  | nil =>
      refine ⟨wf_init hasher, rfl, ?_, rfl⟩
      show ((init : Hashtable Key Value).buckets.flatten).Perm []
      rw [show (init : Hashtable Key Value).buckets = List.replicate 8 []
        from rfl, flatten_replicate_nil]
  | append_singleton l p ih =>
      have hndl : (l.map Prod.fst).Nodup := by
        rw [List.map_append] at hnd
        exact (List.nodup_append.mp hnd).1
      have hpl : p.1 ∉ l.map Prod.fst := by
        rw [List.map_append] at hnd
        exact fun hmem => (List.nodup_append.mp hnd).2.2 hmem (by simp)
      have hlenl : l.length ≤ 9 := by
        rw [List.length_append] at hlen
        omega
      have hn8 : l.length ≤ 8 := by
        rw [List.length_append, List.length_singleton] at hlen
        omega
      obtain ⟨hwfl, hnel, hperml, hnbl⟩ := ih hndl hlenl
      have habs : find hasher (insRun hasher l) p.1 = none := by
        rw [find_eq_none_iff hwfl]
        intro hmem
        exact hpl ((hperml.map Prod.fst).mem_iff.mp hmem)
      obtain ⟨hwf2, hperm2, hne2, hnb2⟩ := insert_spec_new hwfl p.2 habs
      rw [insRun_append_single]
      refine ⟨hwf2, ?_, ?_, ?_⟩
      · rw [hne2, hnel, List.length_append, List.length_singleton]
      · refine hperm2.trans ?_
        refine (hperml.cons (p.1, p.2)).trans ?_
        rw [show ((p.1, p.2) : Key × Value) = p from rfl]
        exact (List.perm_append_singleton p l).symm
      · have hnbl' : (insRun hasher l).buckets.length
            = if l.length ≤ 5 then 8 else 16 := hnbl
        rw [hnb2, hnel, hnbl', List.length_append, List.length_singleton]
        exact nbuckets_recurrence l.length hn8

/-- C5: inserting a fresh key increments `size`, doubles the bucket count
exactly when the post-insert load `count / bucket_count` (real division)
reaches 0.75 and keeps it otherwise, placing the new entry at the front
of its chain; consequently nine distinct keys inserted from the initial
8-bucket table reach 16 buckets at the 6-th insert, keep 16 through the
9-th, and all nine keys remain findable with their values. -/
theorem insert_load_factor (hasher : Key → Nat) (t : Hashtable Key Value)
    (k : Key) (v : Value) (hpos : 0 < t.buckets.length)
    (hnew : find hasher t k = none) :
    (t.insert hasher k v).size = t.size + 1 ∧
    (t.insert hasher k v).nbuckets
      = (if alpha ≤ ((t.nelems + 1 : Nat) : ℚ) / (t.buckets.length : ℚ)
          then t.buckets.length * 2 else t.buckets.length) ∧
    (¬ alpha ≤ ((t.nelems + 1 : Nat) : ℚ) / (t.buckets.length : ℚ) →
      (t.insert hasher k v).buckets.getD (hasher k % t.buckets.length) []
        = (k, v) :: t.buckets.getD (hasher k % t.buckets.length) []) ∧
    ∀ kvs : List (Key × Value), (kvs.map Prod.fst).Nodup →
      kvs.length = 9 →
      (∀ j, j ≤ 9 → (insRun hasher (kvs.take j)).nbuckets
        = if j ≤ 5 then 8 else 16) ∧
      ∀ p ∈ kvs, find hasher (insRun hasher kvs) p.1 = some p.2 := by
  refine ⟨?_, ?_, ?_, ?_⟩
  · by_cases hload : alpha ≤ ((t.nelems + 1 : Nat) : ℚ)
        / (t.buckets.length : ℚ)
    · rw [insert_eq_grow v hnew hload]
      rfl
    · rw [insert_eq_push v hnew hload]
      rfl
  · by_cases hload : alpha ≤ ((t.nelems + 1 : Nat) : ℚ)
        / (t.buckets.length : ℚ)
    · rw [insert_eq_grow v hnew hload, if_pos hload]
      show (rehash hasher _ (t.buckets.length * 2)).length
        = t.buckets.length * 2
      exact (rehash_spec hasher _
        (show 0 < t.buckets.length * 2 by omega)).1
    · rw [insert_eq_push v hnew hload, if_neg hload]
      exact List.length_set _ _ _
  · intro hload
    rw [insert_eq_push v hnew hload]
    show (t.buckets.set (hasher k % t.buckets.length) _).getD
      (hasher k % t.buckets.length) [] = _
    exact getD_set_self _ _ _ _ (Nat.mod_lt _ hpos)
  · intro kvs hnd9 hlen9
    constructor
    · intro j hj
      have hndt : ((kvs.take j).map Prod.fst).Nodup := by
        rw [List.map_take]
        exact hnd9.sublist (List.take_sublist j _)
      have hlent : (kvs.take j).length ≤ 9 := by
        rw [List.length_take, hlen9]
        omega
      have h4 := (insRun_fill9 hasher (kvs.take j) hndt hlent).2.2.2
      rw [h4, List.length_take, hlen9, inf_eq_left.mpr hj]
    · intro p hp
      obtain ⟨pk, pv⟩ := p
      obtain ⟨hwf9, _, hperm9, _⟩ := insRun_fill9 hasher kvs hnd9
        (by omega)
      exact (find_eq_some_iff hwf9 pk pv).mpr (hperm9.mem_iff.mpr hp)

theorem insert_load_factor_witness :
    ((init : Hashtable Nat Nat).insert id 5 7).size
      = (init : Hashtable Nat Nat).size + 1 ∧
    ((init : Hashtable Nat Nat).insert id 5 7).nbuckets
      = (if alpha ≤ (((init : Hashtable Nat Nat).nelems + 1 : Nat) : ℚ)
            / ((init : Hashtable Nat Nat).buckets.length : ℚ)
          then (init : Hashtable Nat Nat).buckets.length * 2
          else (init : Hashtable Nat Nat).buckets.length) ∧
    (((init : Hashtable Nat Nat).insert id 5 7).buckets.getD
        (id 5 % (init : Hashtable Nat Nat).buckets.length) []
      = (5, 7) :: (init : Hashtable Nat Nat).buckets.getD
        (id 5 % (init : Hashtable Nat Nat).buckets.length) []) ∧
    ((insRun id ([(0, 10), (1, 11), (2, 12), (3, 13), (4, 14), (5, 15),
        (6, 16), (7, 17), (8, 18)].take 6)).nbuckets
      = if 6 ≤ 5 then 8 else 16) ∧
    find id (insRun id [(0, 10), (1, 11), (2, 12), (3, 13), (4, 14),
        (5, 15), (6, 16), (7, 17), (8, 18)]) 4 = some 14 :=
  ⟨(insert_load_factor id init 5 7 (by decide) rfl).1,
   (insert_load_factor id init 5 7 (by decide) rfl).2.1,
   (insert_load_factor id init 5 7 (by decide) rfl).2.2.1
     (by norm_num [alpha, init]),
   ((insert_load_factor id init 5 7 (by decide) rfl).2.2.2
     [(0, 10), (1, 11), (2, 12), (3, 13), (4, 14), (5, 15), (6, 16),
      (7, 17), (8, 18)] (by decide) rfl).1 6 (by decide),
   ((insert_load_factor id init 5 7 (by decide) rfl).2.2.2
     [(0, 10), (1, 11), (2, 12), (3, 13), (4, 14), (5, 15), (6, 16),
      (7, 17), (8, 18)] (by decide) rfl).2 (4, 14) (by decide)⟩

theorem rehash_preserves_data_witness :
    ((⟨rehash id (insRun id [(1, 10), (2, 20)]).buckets
        ((insRun id [(1, 10), (2, 20)]).buckets.length * 2),
        (insRun id [(1, 10), (2, 20)]).nelems⟩ :
        Hashtable Nat Nat).entries).Perm
      (insRun id [(1, 10), (2, 20)]).entries ∧
    find id (⟨rehash id (insRun id [(1, 10), (2, 20)]).buckets
        ((insRun id [(1, 10), (2, 20)]).buckets.length * 2),
        (insRun id [(1, 10), (2, 20)]).nelems⟩ : Hashtable Nat Nat) 1
      = find id (insRun id [(1, 10), (2, 20)]) 1 ∧
    (⟨rehash id (insRun id [(1, 10), (2, 20)]).buckets
        ((insRun id [(1, 10), (2, 20)]).buckets.length * 2),
        (insRun id [(1, 10), (2, 20)]).nelems⟩ :
        Hashtable Nat Nat).size = (insRun id [(1, 10), (2, 20)]).size :=
  ⟨(rehash_preserves_data id ⟨[(1, 10), (2, 20)], rfl⟩).1,
   (rehash_preserves_data id ⟨[(1, 10), (2, 20)], rfl⟩).2.1 1,
   (rehash_preserves_data id ⟨[(1, 10), (2, 20)], rfl⟩).2.2⟩

theorem erase_spec_witness :
    (((insRun id [(1, 10)]).buckets.getD
        (id 1 % (insRun id [(1, 10)]).buckets.length) []).countP
        fun p => decide (p.1 = 1)) ≤ 1 ∧
    ((insRun id [(1, 10)]).erase id 1).nelems
      = (insRun id [(1, 10)]).nelems
        - (((insRun id [(1, 10)]).buckets.getD
            (id 1 % (insRun id [(1, 10)]).buckets.length) []).countP
            fun p => decide (p.1 = 1)) ∧
    ((insRun id [(1, 10)]).erase id 1).nbuckets
      = (insRun id [(1, 10)]).nbuckets ∧
    find id ((insRun id [(1, 10)]).erase id 1) 1 = none ∧
    find id ((insRun id [(1, 10)]).erase id 1) 2
      = find id (insRun id [(1, 10)]) 2 ∧
    (insRun id ([] : List (Nat × Nat))).erase id 5
      = insRun id ([] : List (Nat × Nat)) :=
  ⟨(erase_spec id (wf_insRun id [(1, 10)]) 1).1,
   (erase_spec id (wf_insRun id [(1, 10)]) 1).2.1,
   (erase_spec id (wf_insRun id [(1, 10)]) 1).2.2.1,
   (erase_spec id (wf_insRun id [(1, 10)]) 1).2.2.2.1,
   (erase_spec id (wf_insRun id [(1, 10)]) 1).2.2.2.2.1 2 (by decide),
   (erase_spec id (wf_insRun id ([] : List (Nat × Nat))) 5).2.2.2.2.2 rfl⟩

end Hashtable

end ContainersCpp
